import Mathlib

/-!
Verification of the record-normalization and ordering engine of
`biblioteca_manager.py`: the text normalizer, the volume extractor
(digits / Roman numerals / Italian ordinal words), the line parser and
the merge engine, shallowly embedded as executable Lean definitions.

Strings are modelled as Lean `String` (a list of Unicode code points,
matching Python `str`).  Unicode-dependent primitives (`unicodedata`
NFKD decomposition, combining-class test, `str.casefold`, `str.strip`)
are modelled by explicit character tables covering the alphabet this
program works over: ASCII plus the Latin-1 accented letters the Italian
catalog data uses.  Characters outside the modelled tables decompose to
themselves and case-fold to themselves.
-/

namespace Biblioteca

/-- Python `str.strip()` / `\s` whitespace, over the modelled alphabet:
space, tab, newline, carriage return, vertical tab, form feed. -/
def isSpaceChar (c : Char) : Bool :=
  c.toNat = 32 || c.toNat = 9 || c.toNat = 10 || c.toNat = 13 || c.toNat = 11 || c.toNat = 12

/-- ASCII decimal digit (the digits produced and consumed by this program). -/
def isDigitChar (c : Char) : Bool :=
  48 ≤ c.toNat && c.toNat ≤ 57

/-- Generic association-list lookup (used for every character / word table). -/
def lookupRows {α β : Type} [DecidableEq α] : List (α × β) → α → Option β
  | [], _ => none
  | (k, v) :: rest, c => if c = k then some v else lookupRows rest c

/-- NFKD decompositions of the accented letters in the modelled alphabet
(`unicodedata.normalize("NFKD", ...)` restricted to this program's data):
base letter followed by the combining mark. -/
def accentRows : List (Char × List Char) :=
  [('À', ['A', '̀']), ('Á', ['A', '́']), ('È', ['E', '̀']),
   ('É', ['E', '́']), ('Ì', ['I', '̀']), ('Í', ['I', '́']),
   ('Ò', ['O', '̀']), ('Ó', ['O', '́']), ('Ù', ['U', '̀']),
   ('Ú', ['U', '́']), ('à', ['a', '̀']), ('á', ['a', '́']),
   ('è', ['e', '̀']), ('é', ['e', '́']), ('ì', ['i', '̀']),
   ('í', ['i', '́']), ('ò', ['o', '̀']), ('ó', ['o', '́']),
   ('ù', ['u', '̀']), ('ú', ['u', '́']), ('Ç', ['C', '̧']),
   ('ç', ['c', '̧']), ('Ü', ['U', '̈']), ('ü', ['u', '̈']),
   ('Ö', ['O', '̈']), ('ö', ['o', '̈']), ('Ä', ['A', '̈']),
   ('ä', ['a', '̈'])]

/-- Per-character NFKD decomposition; characters outside the table are
NFKD-stable and decompose to themselves. -/
def nfkdChar (c : Char) : List Char :=
  (lookupRows accentRows c).getD [c]

/-- `unicodedata.combining(ch) != 0`: the combining diacritical marks block. -/
def isCombining (c : Char) : Bool :=
  0x300 ≤ c.toNat && c.toNat ≤ 0x36F

/-- Concatenated per-character NFKD decomposition of a character list. -/
def expandNfkd : List Char → List Char
  | [] => []
  | c :: rest => nfkdChar c ++ expandNfkd rest

/-- `strip_accents`: NFKD-decompose, then drop combining marks
(`biblioteca_manager.py`, lines 90-92). -/
def strip_accents (l : List Char) : List Char :=
  (expandNfkd l).filter (fun c => !isCombining c)

/-- `str.casefold()` over the modelled alphabet: the simple case foldings
A-Z → a-z (accented letters are decomposed before casefolding in every
call site, so only ASCII letters reach this table). -/
def foldRows : List (Char × Char) :=
  [('A', 'a'), ('B', 'b'), ('C', 'c'), ('D', 'd'), ('E', 'e'), ('F', 'f'),
   ('G', 'g'), ('H', 'h'), ('I', 'i'), ('J', 'j'), ('K', 'k'), ('L', 'l'),
   ('M', 'm'), ('N', 'n'), ('O', 'o'), ('P', 'p'), ('Q', 'q'), ('R', 'r'),
   ('S', 's'), ('T', 't'), ('U', 'u'), ('V', 'v'), ('W', 'w'), ('X', 'x'),
   ('Y', 'y'), ('Z', 'z')]

def casefoldChar (c : Char) : Char :=
  (lookupRows foldRows c).getD c

/-- Python `str.strip()`: drop leading and trailing whitespace. -/
def trimChars (l : List Char) : List Char :=
  ((l.dropWhile isSpaceChar).reverse.dropWhile isSpaceChar).reverse

/-- `norm` on the underlying character list: strip accents, strip
surrounding whitespace, casefold (`biblioteca_manager.py`, lines 95-98;
the `None` branch of the source returns `""` and never arises at the
call sites modelled here, which all pass strings). -/
def normChars (l : List Char) : List Char :=
  (trimChars (strip_accents l)).map casefoldChar

def norm (s : String) : String :=
  String.mk (normChars s.data)

def pyStrip (s : String) : String :=
  String.mk (trimChars s.data)


/-! ### Year parsing, Roman numerals and the volume extractor -/

/-- Digit-string to integer (`int(...)` on an all-digit string). -/
def digitsToNat (l : List Char) : Nat :=
  l.foldl (fun a c => 10 * a + (c.toNat - 48)) 0

/-- Leftmost match of the regex `\d{1,4}`: at the first position holding a
digit, greedily take up to four consecutive digits. -/
def findDigitRun : List Char → Option (List Char)
  | [] => none
  | c :: rest =>
    if isDigitChar c then some (((c :: rest).takeWhile isDigitChar).take 4)
    else findDigitRun rest

/-- `parse_int` (`biblioteca_manager.py`, lines 101-113): strip, reject the
empty string, then parse the first run of one to four digits; the `int()`
call on a digit string never raises. -/
def parse_int (s : String) : Option Nat :=
  let t := trimChars s.data
  if t = [] then none
  else
    match findDigitRun t with
    | none => none
    | some ds => some (digitsToNat ds)

/-- `ROMAN_MAP` (`biblioteca_manager.py`, line 87). -/
def ROMAN_MAP : List (Char × Nat) :=
  [('i', 1), ('v', 5), ('x', 10), ('l', 50), ('c', 100), ('d', 500), ('m', 1000)]

/-- The right-to-left accumulation loop of `roman_to_int`: the input list is
the reversed numeral; state is (running total, previous added value). -/
def romanGo : List Char → Int → Nat → Int × Nat
  | [], t, p => (t, p)
  | c :: rest, t, p =>
    let v := (lookupRows ROMAN_MAP c).getD 0
    if v < p then romanGo rest (t - v) p
    else romanGo rest (t + v) v

/-- `roman_to_int` (`biblioteca_manager.py`, lines 116-129). -/
def roman_to_int (s : String) : Option Nat :=
  let roman := normChars s.data
  if roman = [] then none
  else if roman.any (fun c => (lookupRows ROMAN_MAP c).isNone) then none
  else
    let r := romanGo roman.reverse 0 0
    if 0 < r.1 then some r.1.toNat else none

/-- `ITALIAN_ORDINALS` (`biblioteca_manager.py`, lines 63-84): both
grammatical genders map to the same integer. -/
def ITALIAN_ORDINALS : List (String × Nat) :=
  [("primo", 1), ("prima", 1), ("secondo", 2), ("seconda", 2),
   ("terzo", 3), ("terza", 3), ("quarto", 4), ("quarta", 4),
   ("quinto", 5), ("quinta", 5), ("sesto", 6), ("sesta", 6),
   ("settimo", 7), ("settima", 7), ("ottavo", 8), ("ottava", 8),
   ("nono", 9), ("nona", 9), ("decimo", 10), ("decima", 10),
   ("undicesimo", 11), ("undicesima", 11), ("dodicesimo", 12), ("dodicesima", 12),
   ("tredicesimo", 13), ("tredicesima", 13), ("quattordicesimo", 14), ("quattordicesima", 14),
   ("quindicesimo", 15), ("quindicesima", 15), ("sedicesimo", 16), ("sedicesima", 16),
   ("diciassettesimo", 17), ("diciassettesima", 17), ("diciottesimo", 18), ("diciottesima", 18),
   ("diciannovesimo", 19), ("diciannovesima", 19), ("ventesimo", 20), ("ventesima", 20)]

/-!
The search of the compiled pattern `VOLUME_RE`
(`biblioteca_manager.py`, lines 132-138):

  `\b(?:vol\.?|volume|tomo|parte)\s*`
  `(?P<v>(?:\d+)|(?:[ivxlcdm]+)|(?:primo|secondo|...|ventesimo))\b`

with `re.IGNORECASE`, modelled directly as a leftmost-match scan with the
backtracking order of the Python engine: at each position the designator
alternatives are tried in pattern order (the greedy `\.?` makes `vol.`
precede `vol`), then `\s*`, then the value alternatives in pattern order.
-/

/-- Case-insensitive literal match of one pattern character (pattern
characters are lowercase or `.`). -/
def isPrefixCI : List Char → List Char → Bool
  | [], _ => true
  | _ :: _, [] => false
  | p :: ps, c :: cs => (casefoldChar c = p) && isPrefixCI ps cs

/-- `\w` over the modelled alphabet: ASCII letters, digits, underscore,
and the Latin letter blocks covering the accented characters in the data. -/
def isWordChar (c : Char) : Bool :=
  (65 ≤ c.toNat && c.toNat ≤ 90) || (97 ≤ c.toNat && c.toNat ≤ 122) ||
  isDigitChar c || c = '_' ||
  (0xC0 ≤ c.toNat && c.toNat ≤ 0x2AF && c.toNat ≠ 0xD7 && c.toNat ≠ 0xF7)

/-- The trailing `\b` of the pattern: the value token always ends in a word
character, so the boundary holds exactly when the remainder is empty or
starts with a non-word character. -/
def boundaryOk : List Char → Bool
  | [] => true
  | c :: _ => !isWordChar c

/-- Letters of the Roman-numeral character class `[ivxlcdm]`, case folded. -/
def isRomanCI (c : Char) : Bool :=
  casefoldChar c = 'i' || casefoldChar c = 'v' || casefoldChar c = 'x' ||
  casefoldChar c = 'l' || casefoldChar c = 'c' || casefoldChar c = 'd' ||
  casefoldChar c = 'm'

/-- The ordinal-word alternatives of the pattern, in pattern order.  The
pattern lists only the masculine (-o) forms. -/
def regexOrdinalWords : List (List Char) :=
  [['p','r','i','m','o'], ['s','e','c','o','n','d','o'], ['t','e','r','z','o'],
   ['q','u','a','r','t','o'], ['q','u','i','n','t','o'], ['s','e','s','t','o'],
   ['s','e','t','t','i','m','o'], ['o','t','t','a','v','o'], ['n','o','n','o'],
   ['d','e','c','i','m','o'],
   ['u','n','d','i','c','e','s','i','m','o'], ['d','o','d','i','c','e','s','i','m','o'],
   ['t','r','e','d','i','c','e','s','i','m','o'],
   ['q','u','a','t','t','o','r','d','i','c','e','s','i','m','o'],
   ['q','u','i','n','d','i','c','e','s','i','m','o'],
   ['s','e','d','i','c','e','s','i','m','o'],
   ['d','i','c','i','a','s','s','e','t','t','e','s','i','m','o'],
   ['d','i','c','i','o','t','t','e','s','i','m','o'],
   ['d','i','c','i','a','n','n','o','v','e','s','i','m','o'],
   ['v','e','n','t','e','s','i','m','o']]

def tryOrdinals : List (List Char) → List Char → Option (List Char)
  | [], _ => none
  | w :: ws, cs =>
    if isPrefixCI w cs && boundaryOk (cs.drop w.length) then some (cs.take w.length)
    else tryOrdinals ws cs

/-- The value-token alternation `(?:\d+)|(?:[ivxlcdm]+)|(?:primo|...)`
followed by `\b`.  The two character-class branches are greedy; a shorter
match is never retried because the following character would then be a
digit (resp. a Roman letter), which is a word character and fails `\b`. -/
def matchValue (cs : List Char) : Option (List Char) :=
  let ds := cs.takeWhile isDigitChar
  if ds ≠ [] && boundaryOk (cs.drop ds.length) then some ds
  else
    let rs := cs.takeWhile isRomanCI
    if rs ≠ [] && boundaryOk (cs.drop rs.length) then some rs
    else tryOrdinals regexOrdinalWords cs

/-- `\s*` before the value token.  Maximal munch is faithful: every value
alternative begins with a word character, never whitespace, so consuming
fewer whitespace characters can never produce a match. -/
def dropSpacesL (cs : List Char) : List Char :=
  cs.dropWhile isSpaceChar

def tryDesig (w : List Char) (cs : List Char) : Option (List Char) :=
  if isPrefixCI w cs then matchValue (dropSpacesL (cs.drop w.length)) else none

/-- One attempt of the full pattern at a fixed position: designator
alternatives in backtracking order, each followed by `\s*` and a value. -/
def matchAt (cs : List Char) : Option (List Char) :=
  match tryDesig ['v','o','l','.'] cs with
  | some t => some t
  | none =>
  match tryDesig ['v','o','l'] cs with
  | some t => some t
  | none =>
  match tryDesig ['v','o','l','u','m','e'] cs with
  | some t => some t
  | none =>
  match tryDesig ['t','o','m','o'] cs with
  | some t => some t
  | none => tryDesig ['p','a','r','t','e'] cs

/-- `re.search`: scan left to right; the leading `\b` holds exactly when the
preceding character (second argument) is absent or not a word character,
because every designator begins with a word character. -/
def searchVol : List Char → Bool → Option (List Char)
  | [], _ => none
  | c :: rest, prevWord =>
    match (if prevWord then none else matchAt (c :: rest)) with
    | some t => some t
    | none => searchVol rest (isWordChar c)

/-- `parse_volume` (`biblioteca_manager.py`, lines 141-154). -/
def parse_volume (title : String) : Option Nat :=
  if title.data = [] then none
  else
    match searchVol title.data false with
    | none => none
    | some v =>
      let vn := normChars v
      if vn ≠ [] && vn.all isDigitChar then some (digitsToNat vn)
      else
        match lookupRows ITALIAN_ORDINALS (String.mk vn) with
        | some k => some k
        | none => roman_to_int (String.mk vn)

/-- Python `x or y` on optional volume numbers: `None` and `0` are falsy. -/
def pyOr (a b : Option Nat) : Option Nat :=
  match a with
  | some n => if n = 0 then b else some n
  | none => b

/-! ### The Record -/

/-- `Book` (`biblioteca_manager.py`, lines 157-169); `anno` and `volume`
are the optional parsed integers, both non-negative. -/
structure Book where
  genere : String
  cognome : String
  nome : String
  titolo : String
  collana : String
  editore : String
  anno : Option Nat
  volume : Option Nat
  note : String
  inserito_il : String
  updated_il : String
deriving DecidableEq

/-- `Book.key` (`biblioteca_manager.py`, lines 171-182): the deduplication
key — normalized strings plus the raw year and volume. -/
def Book.key (b : Book) :
    String × String × String × String × String × Option Nat × Option Nat :=
  (norm b.genere, norm b.cognome, norm b.nome, norm b.titolo, norm b.editore,
   b.anno, b.volume)

/-- `Book.sort_key` (`biblioteca_manager.py`, lines 184-196): unknown year
or volume is replaced by the sentinel 99999 so unknowns go last. -/
def Book.sort_key (b : Book) : String × String × String × Nat × Nat × String :=
  (norm b.genere, norm b.cognome, norm b.nome, b.anno.getD 99999,
   b.volume.getD 99999, norm b.titolo)

/-- Code-point lexicographic comparison of character lists: the order
Python uses on `str`. -/
def charListLtB : List Char → List Char → Bool
  | [], [] => false
  | [], _ :: _ => true
  | _ :: _, [] => false
  | a :: as, b :: bs =>
    if a.toNat < b.toNat then true
    else if b.toNat < a.toNat then false
    else charListLtB as bs

def strLtB (a b : String) : Bool := charListLtB a.data b.data

/-- Python `<` on the 6-tuple sort keys: lexicographic componentwise. -/
def sortKeyLtB (x y : String × String × String × Nat × Nat × String) : Bool :=
  if strLtB x.1 y.1 then true else if strLtB y.1 x.1 then false
  else if strLtB x.2.1 y.2.1 then true else if strLtB y.2.1 x.2.1 then false
  else if strLtB x.2.2.1 y.2.2.1 then true else if strLtB y.2.2.1 x.2.2.1 then false
  else if x.2.2.2.1 < y.2.2.2.1 then true else if y.2.2.2.1 < x.2.2.2.1 then false
  else if x.2.2.2.2.1 < y.2.2.2.2.1 then true else if y.2.2.2.2.1 < x.2.2.2.2.1 then false
  else strLtB x.2.2.2.2.2 y.2.2.2.2.2

/-- `merged.sort(key=lambda x: x.sort_key)`: Python's stable sort by `<` on
keys, modelled by the stable `mergeSort` with `a ≤ b ↔ ¬ b < a`. -/
def sortBooks (l : List Book) : List Book :=
  l.mergeSort (fun a b => !sortKeyLtB b.sort_key a.sort_key)

/-! ### The line parser -/

/-- `detect_delimiter` (`biblioteca_manager.py`, lines 233-240). -/
def detect_delimiter (raw : String) : Char :=
  if raw.data.contains ';' then ';'
  else if raw.data.contains '|' then '|'
  else if raw.data.contains '\t' then '\t'
  else ','

/-- Python `str.split(sep)` for a one-character separator: split at every
occurrence, keeping empty fields. -/
def splitOnChar (d : Char) : List Char → List (List Char)
  | [] => [[]]
  | c :: rest =>
    match splitOnChar d rest with
    | [] => if c = d then [[], []] else [[c]]
    | h :: t => if c = d then [] :: h :: t else (c :: h) :: t

/-- The state machine of `csv.reader` with `delimiter=","`,
`quotechar='"'`, `doublequote=True`, `skipinitialspace=True`, non-strict:
0 = start of field (skipping initial spaces), 1 = in unquoted field,
2 = in quoted field, 3 = just after a quote inside a quoted field. -/
def csvGo : List Char → Nat → List Char → List (List Char) → List (List Char)
  | [], _, field, acc => acc ++ [field.reverse]
  | c :: rest, 0, field, acc =>
    if c = ' ' then csvGo rest 0 field acc
    else if c = '"' then csvGo rest 2 field acc
    else if c = ',' then csvGo rest 0 [] (acc ++ [field.reverse])
    else csvGo rest 1 (c :: field) acc
  | c :: rest, 1, field, acc =>
    if c = ',' then csvGo rest 0 [] (acc ++ [field.reverse])
    else csvGo rest 1 (c :: field) acc
  | c :: rest, 2, field, acc =>
    if c = '"' then csvGo rest 3 field acc
    else csvGo rest 2 (c :: field) acc
  | c :: rest, _, field, acc =>
    if c = '"' then csvGo rest 2 (c :: field) acc
    else if c = ',' then csvGo rest 0 [] (acc ++ [field.reverse])
    else csvGo rest 1 (c :: field) acc

def csvSplit (l : List Char) : List String :=
  (csvGo l 0 [] []).map String.mk

/-- The row a raw (already stripped, non-blank) line splits into:
`csv.reader` for the comma fallback, otherwise plain split with each
field stripped (`biblioteca_manager.py`, lines 256-262). -/
def rowOf (raw : String) : List String :=
  let delim := detect_delimiter raw
  if delim = ',' then csvSplit raw.data
  else (splitOnChar delim raw.data).map (fun f => String.mk (trimChars f))

/-- The warning attached to a line with fewer than seven fields
(`biblioteca_manager.py`, lines 266-273). -/
def shortLineMsg (nFields : Nat) (raw : String) (delim : Char) (interactive : Bool) : String :=
  let d := String.mk [delim]
  "Riga con " ++ Nat.repr nFields ++ " campi (servono 7): " ++ raw ++
  "\nFormato: Cognome" ++ d ++ "Nome" ++ d ++ "Titolo" ++ d ++ "Collana" ++ d ++
  "Casa editrice" ++ d ++ "Anno" ++ d ++ "Genere/Contesto" ++
  (if interactive then "  -> Saltata (modalità interattiva: correggi e reinserisci)."
   else "  -> Saltata.")

/-- The seven resolved fields (cognome, nome, titolo, collana, editore,
anno, genere) of a row with at least seven fields
(`biblioteca_manager.py`, lines 277-287): more than seven fields keeps the
first two and last four and re-joins the middle into the title. -/
def resolveRow (delim : Char) (row : List String) :
    String × String × String × String × String × String × String :=
  if row.length > 7 then
    (row.getD 0 "", row.getD 1 "",
     pyStrip (String.intercalate (String.mk [delim]) ((row.drop 2).take (row.length - 6))),
     row.getD (row.length - 4) "", row.getD (row.length - 3) "",
     row.getD (row.length - 2) "", row.getD (row.length - 1) "")
  else
    (row.getD 0 "", row.getD 1 "", row.getD 2 "", row.getD 3 "",
     row.getD 4 "", row.getD 5 "", row.getD 6 "")

/-- Construction of the `Book` for one accepted row
(`biblioteca_manager.py`, lines 289-308); `now` is the timestamp string
taken once per batch. -/
def mkBookFromRow (now : String) (delim : Char) (row : List String) : Book :=
  let r := resolveRow delim row
  let cognome := r.1
  let nome := r.2.1
  let titolo := r.2.2.1
  let collana := r.2.2.2.1
  let editore := r.2.2.2.2.1
  let anno := r.2.2.2.2.2.1
  let genere := r.2.2.2.2.2.2
  { genere := pyStrip genere, cognome := pyStrip cognome, nome := pyStrip nome,
    titolo := pyStrip titolo, collana := pyStrip collana, editore := pyStrip editore,
    anno := parse_int anno,
    volume := pyOr (parse_volume titolo) (parse_volume collana),
    note := "", inserito_il := now, updated_il := now }

/-- `parse_lines` (`biblioteca_manager.py`, lines 243-310) with the
per-batch timestamp injected as a parameter. -/
def parse_lines (now : String) (interactive : Bool) : List String → List Book × List String
  | [] => ([], [])
  | raw0 :: rest =>
    let raw := pyStrip raw0
    if raw.data = [] then parse_lines now interactive rest
    else if raw.data.head? = some '#' then parse_lines now interactive rest
    else
      let delim := detect_delimiter raw
      let row := rowOf raw
      let r := parse_lines now interactive rest
      if row.length < 7 then
        (r.1, shortLineMsg row.length raw delim interactive :: r.2)
      else
        (mkBookFromRow now delim row :: r.1, r.2)

/-! ### The merge engine -/

/-- The re-stamping of an incoming record (`biblioteca_manager.py`, lines
392-405): `inserito_il` is kept if non-empty (Python `or`), `updated_il`
becomes `now`. -/
def restamp (now : String) (b : Book) : Book :=
  { b with inserito_il := if b.inserito_il = "" then now else b.inserito_il,
           updated_il := now }

/-- The accumulation loop of `add_books` (`biblioteca_manager.py`, lines
391-411): state is the running key set (as a list), the merged list and
the added/skipped counters. -/
def addLoop (now : String) (allow : Bool) :
    List Book → List (String × String × String × String × String × Option Nat × Option Nat) →
    List Book → Nat → Nat → List Book × Nat × Nat
  | [], _, merged, a, s => (merged, a, s)
  | b :: rest, keys, merged, a, s =>
    let b2 := restamp now b
    if allow = false ∧ b2.key ∈ keys then addLoop now allow rest keys merged a (s + 1)
    else addLoop now allow rest (b2.key :: keys) (merged ++ [b2]) (a + 1) s

/-- `add_books` (`biblioteca_manager.py`, lines 376-416) at the collection
level: the worksheet I/O around it (load_existing / write_all / save) is
the out-of-scope store boundary; `existing` is the loaded collection.
Returns the sorted merged collection and the (added, skipped) counts. -/
def add_books (existing incoming : List Book) (allow_duplicates : Bool) (now : String) :
    List Book × Nat × Nat :=
  let r := addLoop now allow_duplicates incoming (existing.map Book.key) existing 0 0
  (sortBooks r.1, r.2.1, r.2.2)

/-! ### Canonical Roman numerals (the reference value for C4: the
standard subtractive representation over {I, V, X, L, C, D, M}) -/

def romUnits : List (List Char) :=
  [[], ['I'], ['I','I'], ['I','I','I'], ['I','V'], ['V'], ['V','I'], ['V','I','I'],
   ['V','I','I','I'], ['I','X']]

def romTens : List (List Char) :=
  [[], ['X'], ['X','X'], ['X','X','X'], ['X','L'], ['L'], ['L','X'], ['L','X','X'],
   ['L','X','X','X'], ['X','C']]

def romHund : List (List Char) :=
  [[], ['C'], ['C','C'], ['C','C','C'], ['C','D'], ['D'], ['D','C'], ['D','C','C'],
   ['D','C','C','C'], ['C','M']]

def romThous : List (List Char) :=
  [[], ['M'], ['M','M'], ['M','M','M']]

/-- The standard Roman numeral for `n` (valid for 1 ≤ n ≤ 3999). -/
def romanCanonChars (n : Nat) : List Char :=
  romThous.getD (n / 1000) [] ++ romHund.getD (n % 1000 / 100) [] ++
  romTens.getD (n % 100 / 10) [] ++ romUnits.getD (n % 10) []

def romanCanon (n : Nat) : String := String.mk (romanCanonChars n)

/-! ### Stability lemmas for `norm` -/

theorem lookupRows_mem {α β : Type} [DecidableEq α] {rows : List (α × β)} {c : α} {v : β}
    (h : lookupRows rows c = some v) : (c, v) ∈ rows := by
  induction rows with
  | nil => simp [lookupRows] at h
  | cons p rest ih =>
    obtain ⟨k, w⟩ := p
    simp only [lookupRows] at h
    by_cases hck : c = k
    · subst hck
      simp at h
      subst h
      exact List.mem_cons_self _ _
    · simp [hck] at h
      exact List.mem_cons_of_mem _ (ih h)

theorem lookupRows_none {α β : Type} [DecidableEq α] {rows : List (α × β)} {c : α}
    (h : ∀ p ∈ rows, p.1 ≠ c) : lookupRows rows c = none := by
  induction rows with
  | nil => rfl
  | cons p rest ih =>
    obtain ⟨k, w⟩ := p
    have hk : k ≠ c := h (k, w) (List.mem_cons_self _ _)
    simp only [lookupRows]
    rw [if_neg (fun hc => hk hc.symm)]
    exact ih (fun q hq => h q (List.mem_cons_of_mem _ hq))

/-- A character is `stable` when every stage of `norm` leaves it alone
as far as re-normalization is concerned. -/
def charStable (c : Char) : Prop :=
  nfkdChar c = [c] ∧ isCombining c = false

theorem accentRows_keys_high : ∀ p ∈ accentRows, 0xC0 ≤ p.1.toNat := by decide

theorem foldRows_keys_upper : ∀ p ∈ foldRows, 65 ≤ p.1.toNat ∧ p.1.toNat ≤ 90 := by decide

theorem nfkdChar_eq_self_of_lt {c : Char} (h : c.toNat < 0xC0) : nfkdChar c = [c] := by
  unfold nfkdChar
  rw [lookupRows_none]
  · rfl
  · intro p hp hpc
    have := accentRows_keys_high p hp
    rw [hpc] at this
    omega

theorem casefoldChar_eq_self_of_not_upper {c : Char}
    (h : c.toNat < 65 ∨ 90 < c.toNat) : casefoldChar c = c := by
  unfold casefoldChar
  rw [lookupRows_none]
  · rfl
  · intro p hp hpc
    have := foldRows_keys_upper p hp
    rw [hpc] at this
    omega

/-- Every non-combining character produced by an NFKD decomposition is
itself NFKD-stable. -/
theorem nfkd_out_stable : ∀ c d : Char, d ∈ nfkdChar c → isCombining d = false →
    nfkdChar d = [d] := by
  intro c d hd hcomb
  unfold nfkdChar at hd
  cases h : lookupRows accentRows c with
  | none =>
    rw [h] at hd
    simp at hd
    subst hd
    unfold nfkdChar
    rw [h]
    rfl
  | some v =>
    rw [h] at hd
    simp at hd
    have hmem := lookupRows_mem h
    have : ∀ p ∈ accentRows, ∀ d ∈ p.2, isCombining d = false → nfkdChar d = [d] := by decide
    exact this (c, v) hmem d hd hcomb

/-- Casefolding preserves stability, is idempotent, and preserves
non-whitespace-ness. -/
theorem casefold_out_stable : ∀ c : Char, nfkdChar c = [c] → isCombining c = false →
    nfkdChar (casefoldChar c) = [casefoldChar c] ∧
    isCombining (casefoldChar c) = false ∧
    casefoldChar (casefoldChar c) = casefoldChar c := by
  intro c hn hc
  cases h : lookupRows foldRows c with
  | none =>
    have he : casefoldChar c = c := by unfold casefoldChar; rw [h]; rfl
    rw [he]
    exact ⟨hn, hc, he⟩
  | some v =>
    have hv : casefoldChar c = v := by unfold casefoldChar; rw [h]; rfl
    have hmem := lookupRows_mem h
    have : ∀ p ∈ foldRows, nfkdChar p.2 = [p.2] ∧ isCombining p.2 = false ∧
        casefoldChar p.2 = p.2 := by decide
    rw [hv]
    exact this (c, v) hmem

theorem casefold_space : ∀ c : Char, isSpaceChar (casefoldChar c) = isSpaceChar c := by
  intro c
  cases h : lookupRows foldRows c with
  | none =>
    have he : casefoldChar c = c := by unfold casefoldChar; rw [h]; rfl
    rw [he]
  | some v =>
    have hv : casefoldChar c = v := by unfold casefoldChar; rw [h]; rfl
    have hmem := lookupRows_mem h
    have : ∀ p ∈ foldRows, isSpaceChar p.2 = false ∧ isSpaceChar p.1 = false := by decide
    rw [hv, (this _ hmem).1, (this _ hmem).2]

theorem mem_expandNfkd {l : List Char} {d : Char} (h : d ∈ expandNfkd l) :
    ∃ c ∈ l, d ∈ nfkdChar c := by
  induction l with
  | nil => simp [expandNfkd] at h
  | cons c rest ih =>
    simp only [expandNfkd, List.mem_append] at h
    cases h with
    | inl h => exact ⟨c, List.mem_cons_self _ _, h⟩
    | inr h =>
      obtain ⟨c', hc', hd⟩ := ih h
      exact ⟨c', List.mem_cons_of_mem _ hc', hd⟩

theorem strip_accents_out {l : List Char} {d : Char} (h : d ∈ strip_accents l) :
    nfkdChar d = [d] ∧ isCombining d = false := by
  unfold strip_accents at h
  rw [List.mem_filter] at h
  obtain ⟨hmem, hcomb⟩ := h
  have hcomb' : isCombining d = false := by
    cases hc : isCombining d
    · rfl
    · rw [hc] at hcomb; simp at hcomb
  obtain ⟨c, _, hd⟩ := mem_expandNfkd hmem
  exact ⟨nfkd_out_stable c d hd hcomb', hcomb'⟩

theorem strip_accents_id {l : List Char}
    (h : ∀ d ∈ l, nfkdChar d = [d] ∧ isCombining d = false) :
    strip_accents l = l := by
  induction l with
  | nil => rfl
  | cons c rest ih =>
    have hc := h c (List.mem_cons_self _ _)
    have hrest : strip_accents rest = rest :=
      ih (fun d hd => h d (List.mem_cons_of_mem _ hd))
    unfold strip_accents at hrest ⊢
    simp only [expandNfkd, hc.1, List.filter_append, List.cons_append, List.nil_append,
      List.filter_cons, hc.2]
    simp only [Bool.not_false, if_true]
    rw [show (List.filter (fun c => !isCombining c) (expandNfkd rest)) = rest from hrest]

theorem mem_trimChars {l : List Char} {d : Char} (h : d ∈ trimChars l) : d ∈ l := by
  unfold trimChars at h
  rw [List.mem_reverse] at h
  have h1 := (List.dropWhile_sublist (l := (l.dropWhile isSpaceChar).reverse)
    (p := isSpaceChar)).mem h
  rw [List.mem_reverse] at h1
  exact (List.dropWhile_sublist (p := isSpaceChar)).mem h1

theorem dropWhile_head_false {p : Char → Bool} {l : List Char} {c : Char}
    (h : (l.dropWhile p).head? = some c) : p c = false := by
  induction l with
  | nil => simp [List.dropWhile] at h
  | cons a rest ih =>
    rw [List.dropWhile_cons] at h
    by_cases hp : p a
    · rw [if_pos hp] at h
      exact ih h
    · rw [if_neg hp] at h
      simp at h
      subst h
      cases hpa : p a
      · rfl
      · exact absurd hpa hp

theorem dropWhile_idem (p : Char → Bool) (l : List Char) :
    (l.dropWhile p).dropWhile p = l.dropWhile p := by
  cases h : l.dropWhile p with
  | nil => rfl
  | cons c rest =>
    rw [List.dropWhile_cons]
    have : p c = false := by
      apply dropWhile_head_false (l := l)
      rw [h]
      rfl
    rw [this]
    simp

theorem dropWhile_map_comm {f : Char → Char} {p : Char → Bool}
    (hf : ∀ c, p (f c) = p c) (l : List Char) :
    (l.map f).dropWhile p = (l.dropWhile p).map f := by
  induction l with
  | nil => rfl
  | cons c rest ih =>
    simp only [List.map_cons, List.dropWhile_cons, hf c]
    cases hp : p c
    · simp
    · simp [ih]

theorem trimChars_map_comm {f : Char → Char}
    (hf : ∀ c, isSpaceChar (f c) = isSpaceChar c) (l : List Char) :
    trimChars (l.map f) = (trimChars l).map f := by
  unfold trimChars
  rw [dropWhile_map_comm hf, ← List.map_reverse, dropWhile_map_comm hf, List.map_reverse]

theorem trimChars_idem (l : List Char) : trimChars (trimChars l) = trimChars l := by
  unfold trimChars
  set p := isSpaceChar
  set m := l.dropWhile p with hm
  -- first: the inner dropWhile of the already-trimmed list is a no-op
  have hdrop : ((m.reverse.dropWhile p).reverse).dropWhile p = (m.reverse.dropWhile p).reverse := by
    cases hr : (m.reverse.dropWhile p).reverse with
    | nil => rfl
    | cons c rest =>
      -- the head of the trimmed list is the head of m, which is not a space
      have hpref : ∃ t, (m.reverse.dropWhile p).reverse ++ t = m := by
        obtain ⟨u, hu⟩ := List.dropWhile_suffix (l := m.reverse) (p := p)
        refine ⟨u.reverse, ?_⟩
        have := congrArg List.reverse hu
        rw [List.reverse_append, List.reverse_reverse] at this
        exact this
      obtain ⟨t, ht⟩ := hpref
      have hhead : m.head? = some c := by
        rw [← ht, hr]
        rfl
      have hpc : p c = false := by
        apply dropWhile_head_false (l := l)
        rw [← hm]
        cases hmm : m with
        | nil => rw [hmm] at hhead; simp at hhead
        | cons a b =>
          rw [hmm] at hhead
          simp at hhead
          rw [hhead]
          rfl
      rw [← hr, hr, List.dropWhile_cons, hpc]
      simp
  rw [hdrop, List.reverse_reverse, dropWhile_idem]

theorem normChars_stable (l : List Char) : normChars (normChars l) = normChars l := by
  have hout : ∀ d ∈ normChars l, nfkdChar d = [d] ∧ isCombining d = false ∧
      casefoldChar d = d := by
    intro d hd
    unfold normChars at hd
    rw [List.mem_map] at hd
    obtain ⟨c, hc, hdc⟩ := hd
    have hc' := strip_accents_out (mem_trimChars hc)
    have h2 := casefold_out_stable c hc'.1 hc'.2
    rw [← hdc]
    exact ⟨h2.1, h2.2.1, h2.2.2⟩
  show (trimChars (strip_accents (normChars l))).map casefoldChar = normChars l
  rw [strip_accents_id (fun d hd => ⟨(hout d hd).1, (hout d hd).2.1⟩)]
  have htrim : trimChars (normChars l) = normChars l := by
    show trimChars ((trimChars (strip_accents l)).map casefoldChar) = _
    rw [trimChars_map_comm casefold_space, trimChars_idem]
    rfl
  rw [htrim]
  have hmap : (normChars l).map casefoldChar = (normChars l).map id :=
    List.map_congr_left (fun d hd => (hout d hd).2.2)
  rw [hmap, List.map_id]

/-! ### Plain characters (ASCII, not uppercase, not whitespace) pass
through `norm` unchanged -/

theorem normChars_id_of_plain {l : List Char}
    (h : ∀ c ∈ l, c.toNat < 0xC0 ∧ (c.toNat < 65 ∨ 90 < c.toNat) ∧ isSpaceChar c = false) :
    normChars l = l := by
  have hstable : ∀ c ∈ l, nfkdChar c = [c] ∧ isCombining c = false := by
    intro c hc
    refine ⟨nfkdChar_eq_self_of_lt (h c hc).1, ?_⟩
    have := (h c hc).1
    simp only [isCombining]
    have : ¬ (0x300 ≤ c.toNat) := by omega
    simp [this]
  have htrim : trimChars l = l := by
    unfold trimChars
    have hdw : ∀ m : List Char, (∀ c ∈ m, isSpaceChar c = false) → m.dropWhile isSpaceChar = m := by
      intro m hm
      cases m with
      | nil => rfl
      | cons c t =>
        rw [List.dropWhile_cons, hm c (List.mem_cons_self _ _)]
        simp
    rw [hdw l (fun c hc => (h c hc).2.2)]
    rw [hdw l.reverse (fun c hc => ((h c) (List.mem_reverse.mp hc)).2.2), List.reverse_reverse]
  unfold normChars
  rw [strip_accents_id hstable, htrim]
  have : l.map casefoldChar = l.map id :=
    List.map_congr_left (fun c hc => casefoldChar_eq_self_of_not_upper (h c hc).2.1)
  rw [this, List.map_id]

theorem takeWhile_all {p : Char → Bool} {l : List Char} (h : ∀ c ∈ l, p c = true) :
    l.takeWhile p = l := by
  induction l with
  | nil => rfl
  | cons c t ih =>
    rw [List.takeWhile_cons, h c (List.mem_cons_self _ _)]
    simp only [if_true]
    rw [ih (fun d hd => h d (List.mem_cons_of_mem _ hd))]

theorem pyStrip_idem (s : String) : pyStrip (pyStrip s) = pyStrip s :=
  congrArg String.mk (trimChars_idem s.data)

theorem digit_facts {c : Char} (h : isDigitChar c = true) :
    c.toNat < 0xC0 ∧ (c.toNat < 65 ∨ 90 < c.toNat) ∧ isSpaceChar c = false ∧
    isWordChar c = true ∧ casefoldChar c = c := by
  have hb : 48 ≤ c.toNat ∧ c.toNat ≤ 57 := by
    simpa [isDigitChar] using h
  obtain ⟨hb1, hb2⟩ := hb
  refine ⟨by omega, Or.inl (by omega), ?_, ?_, ?_⟩
  · simp only [isSpaceChar, Bool.or_eq_false_iff, decide_eq_false_iff_not]
    omega
  · simp [isWordChar, h]
  · exact casefoldChar_eq_self_of_not_upper (Or.inl (by omega))

/-! ### C6 — the text normalizer -/

/-- C6: the text normalizer is idempotent — normalizing twice equals
normalizing once, for every string — and accent/case-insensitive:
`norm "È" = norm "e"`. -/
theorem norm_idempotent_accent_insensitive :
    (∀ s : String, norm (norm s) = norm s) ∧ norm "È" = norm "e" := by
  constructor
  · intro s
    show String.mk (normChars (normChars s.data)) = String.mk (normChars s.data)
    rw [normChars_stable]
  · decide

/-! ### C3 — Italian ordinal words -/

/-- C3: the `ITALIAN_ORDINALS` table maps the feminine form "quinta" to 5,
yet the extractor returns not-found on "tomo quinta", because the ordinal
alternation of `VOLUME_RE` lists only the masculine forms; the masculine
"tomo quinto" does yield 5 and "parte ventesimo" yields 20. -/
theorem feminine_ordinals_unreachable :
    lookupRows ITALIAN_ORDINALS "quinta" = some 5 ∧
    parse_volume "tomo quinta" = none ∧
    parse_volume "tomo quinto" = some 5 ∧
    parse_volume "parte ventesimo" = some 20 := by
  decide

/-! ### C5 — title-first volume resolution -/

/-- C5 counterexample: on the line `A;B;Vol 0;Vol 2;P;2000;G` the
extraction from the title succeeds (with value 0), yet the record's
volume comes from the series: Python's `or` treats 0 as falsy. -/
theorem title_extraction_overridden :
    parse_volume "Vol 0" = some 0 ∧
    (parse_lines "T" false ["A;B;Vol 0;Vol 2;P;2000;G"]).1.map Book.volume = [some 2] := by
  decide

/-- C5 amended: a record's volume is the Python `or` of the title
extraction and the series extraction; a successful *nonzero* title
extraction always wins, and the series result is used exactly when the
title extraction reports not-found or returns 0. -/
theorem volume_title_first :
    (∀ (now : String) (d : Char) (row : List String),
      (mkBookFromRow now d row).volume =
        pyOr (parse_volume (resolveRow d row).2.2.1)
             (parse_volume (resolveRow d row).2.2.2.1)) ∧
    (∀ t c n, parse_volume t = some n → n ≠ 0 →
      pyOr (parse_volume t) (parse_volume c) = some n) ∧
    (∀ t c, parse_volume t = none →
      pyOr (parse_volume t) (parse_volume c) = parse_volume c) ∧
    (∀ t c, parse_volume t = some 0 →
      pyOr (parse_volume t) (parse_volume c) = parse_volume c) := by
  refine ⟨fun now d row => rfl, fun t c n h hn => ?_, fun t c h => ?_, fun t c h => ?_⟩
  · rw [h]; simp [pyOr, hn]
  · rw [h]; simp [pyOr]
  · rw [h]; simp [pyOr]

theorem volume_title_first_witness :
    parse_volume "vol 2" = some 2 ∧ (2 : Nat) ≠ 0 ∧
    pyOr (parse_volume "vol 2") (parse_volume "vol 7") = some 2 :=
  ⟨by decide, by decide, volume_title_first.2.1 "vol 2" "vol 7" 2 (by decide) (by decide)⟩

/-! ### C7 — short lines warn and are skipped -/

/-- C7: a non-blank, non-comment line whose row has fewer than seven
fields contributes exactly one warning — the message naming the received
field count and the expected seven-field layout — and no record, and the
rest of the batch is processed unchanged. -/
theorem short_line_warns
    (now : String) (itv : Bool) (raw0 : String) (rest : List String)
    (h1 : (pyStrip raw0).data ≠ [])
    (h2 : (pyStrip raw0).data.head? ≠ some '#')
    (h3 : (rowOf (pyStrip raw0)).length < 7) :
    parse_lines now itv (raw0 :: rest) =
      ((parse_lines now itv rest).1,
       shortLineMsg (rowOf (pyStrip raw0)).length (pyStrip raw0)
         (detect_delimiter (pyStrip raw0)) itv :: (parse_lines now itv rest).2) := by
  simp only [parse_lines]
  rw [if_neg h1, if_neg h2, if_pos h3]

theorem short_line_warns_witness :
    ((pyStrip "A;B;C;D;E").data ≠ []) ∧
    ((pyStrip "A;B;C;D;E").data.head? ≠ some '#') ∧
    ((rowOf (pyStrip "A;B;C;D;E")).length < 7) ∧
    parse_lines "T" false ["A;B;C;D;E", "Omero;X;Iliade;C;E;1990;G"] =
      ((parse_lines "T" false ["Omero;X;Iliade;C;E;1990;G"]).1,
       shortLineMsg (rowOf (pyStrip "A;B;C;D;E")).length (pyStrip "A;B;C;D;E")
         (detect_delimiter (pyStrip "A;B;C;D;E")) false ::
         (parse_lines "T" false ["Omero;X;Iliade;C;E;1990;G"]).2) ∧
    (parse_lines "T" false ["A;B;C;D;E", "Omero;X;Iliade;C;E;1990;G"]).1.length = 1 :=
  ⟨by decide, by decide, by decide,
   short_line_warns "T" false "A;B;C;D;E" ["Omero;X;Iliade;C;E;1990;G"]
     (by decide) (by decide) (by decide), by decide⟩

/-! ### C8 — more than seven fields -/

/-- C8: a line splitting into more than seven fields takes surname and
name from the first two fields, series, publisher, year and genre from
the last four in that order, and the title is the re-joining (with the
detected delimiter) of every field strictly between them. -/
theorem extra_fields_reconstruct
    (now : String) (itv : Bool) (raw0 : String) (rest : List String)
    (h1 : (pyStrip raw0).data ≠ [])
    (h2 : (pyStrip raw0).data.head? ≠ some '#')
    (h3 : (rowOf (pyStrip raw0)).length > 7) :
    parse_lines now itv (raw0 :: rest) =
      (mkBookFromRow now (detect_delimiter (pyStrip raw0)) (rowOf (pyStrip raw0)) ::
        (parse_lines now itv rest).1, (parse_lines now itv rest).2) ∧
    ∀ (nw : String) (d : Char) (row : List String), row.length > 7 →
      (mkBookFromRow nw d row).cognome = pyStrip (row.getD 0 "") ∧
      (mkBookFromRow nw d row).nome = pyStrip (row.getD 1 "") ∧
      (mkBookFromRow nw d row).titolo =
        pyStrip (String.intercalate (String.mk [d]) ((row.drop 2).take (row.length - 6))) ∧
      (mkBookFromRow nw d row).collana = pyStrip (row.getD (row.length - 4) "") ∧
      (mkBookFromRow nw d row).editore = pyStrip (row.getD (row.length - 3) "") ∧
      (mkBookFromRow nw d row).anno = parse_int (row.getD (row.length - 2) "") ∧
      (mkBookFromRow nw d row).genere = pyStrip (row.getD (row.length - 1) "") := by
  constructor
  · simp only [parse_lines]
    rw [if_neg h1, if_neg h2, if_neg (by omega)]
  · intro nw d row hrow
    have hres : resolveRow d row =
        (row.getD 0 "", row.getD 1 "",
         pyStrip (String.intercalate (String.mk [d]) ((row.drop 2).take (row.length - 6))),
         row.getD (row.length - 4) "", row.getD (row.length - 3) "",
         row.getD (row.length - 2) "", row.getD (row.length - 1) "") := by
      unfold resolveRow
      rw [if_pos hrow]
    refine ⟨?_, ?_, ?_, ?_, ?_, ?_, ?_⟩ <;> simp only [mkBookFromRow, hres]
    exact pyStrip_idem _

theorem extra_fields_reconstruct_witness :
    ((pyStrip "A;B;T1;T2;T3;S;P;1980;G").data ≠ []) ∧
    ((rowOf (pyStrip "A;B;T1;T2;T3;S;P;1980;G")).length > 7) ∧
    (mkBookFromRow "T" ';' (rowOf (pyStrip "A;B;T1;T2;T3;S;P;1980;G"))).titolo = "T1;T2;T3" ∧
    parse_lines "T" false ["A;B;T1;T2;T3;S;P;1980;G"] =
      (mkBookFromRow "T" (detect_delimiter (pyStrip "A;B;T1;T2;T3;S;P;1980;G"))
        (rowOf (pyStrip "A;B;T1;T2;T3;S;P;1980;G")) ::
        (parse_lines "T" false []).1, (parse_lines "T" false []).2) :=
  ⟨by decide, by decide, by decide,
   (extra_fields_reconstruct "T" false "A;B;T1;T2;T3;S;P;1980;G" []
     (by decide) (by decide) (by decide)).1⟩

/-! ### C9 — designator adjacency -/

/-- C9 counterexample: the pattern uses `\s*`, so a designator directly
adjacent to its value matches: "vol3" yields 3, not not-found. -/
theorem adjacent_designator_matches : parse_volume "vol3" = some 3 := by
  decide

/-! ### The merge engine: supporting lemmas -/

theorem restamp_key (now : String) (b : Book) : (restamp now b).key = b.key := rfl

theorem addLoop_all_skipped (now : String) (bs : List Book) :
    ∀ keys merged a s, (∀ b ∈ bs, Book.key b ∈ keys) →
    addLoop now false bs keys merged a s = (merged, a, s + bs.length) := by
  induction bs with
  | nil => intro keys merged a s _; simp [addLoop]
  | cons b rest ih =>
    intro keys merged a s h
    have hb : (restamp now b).key ∈ keys := by
      rw [restamp_key]; exact h b (List.mem_cons_self _ _)
    simp only [addLoop]
    split_ifs with h'
    · rw [ih keys merged a (s + 1) (fun x hx => h x (List.mem_cons_of_mem _ hx))]
      have hs : s + 1 + rest.length = s + (rest.length + 1) := by omega
      simp only [List.length_cons, hs]
    · exact absurd ⟨by trivial, hb⟩ h'

theorem addLoop_mono (now : String) (allow : Bool) (bs : List Book) :
    ∀ keys merged a s x, x ∈ merged → x ∈ (addLoop now allow bs keys merged a s).1 := by
  induction bs with
  | nil => intro keys merged a s x hx; simpa [addLoop] using hx
  | cons b rest ih =>
    intro keys merged a s x hx
    simp only [addLoop]
    split
    · exact ih _ _ _ _ x hx
    · exact ih _ _ _ _ x (List.mem_append_left _ hx)

theorem addLoop_keys_present (now : String) (allow : Bool) (bs : List Book) :
    ∀ keys merged a s, (∀ k ∈ keys, k ∈ merged.map Book.key) →
    ∀ b ∈ bs, Book.key b ∈ (addLoop now allow bs keys merged a s).1.map Book.key := by
  induction bs with
  | nil => intro _ _ _ _ _ b hb; simp at hb
  | cons b rest ih =>
    intro keys merged a s hk x hx
    simp only [addLoop]
    split
    case isTrue h =>
      rcases List.mem_cons.mp hx with hxb | hx'
      · subst hxb
        have hkm : Book.key x ∈ merged.map Book.key := by
          apply hk
          rw [← restamp_key now x]
          exact h.2
        obtain ⟨y, hy, hky⟩ := List.mem_map.mp hkm
        rw [← hky]
        exact List.mem_map_of_mem _ (addLoop_mono now allow rest _ _ _ _ y hy)
      · exact ih _ _ _ _ hk x hx'
    case isFalse h =>
      have hk' : ∀ k ∈ (restamp now b).key :: keys,
          k ∈ (merged ++ [restamp now b]).map Book.key := by
        intro k hkk
        rcases List.mem_cons.mp hkk with hkb | hkk'
        · subst hkb
          rw [List.map_append]
          exact List.mem_append_right _ (by simp)
        · rw [List.map_append]
          exact List.mem_append_left _ (hk k hkk')
      rcases List.mem_cons.mp hx with hxb | hx'
      · subst hxb
        have hmem : restamp now x ∈
            (addLoop now allow rest ((restamp now x).key :: keys)
              (merged ++ [restamp now x]) (a + 1) s).1 :=
          addLoop_mono now allow rest _ _ _ _ _ (List.mem_append_right _ (by simp))
        have := List.mem_map_of_mem Book.key hmem
        rw [restamp_key] at this
        exact this
      · exact ih _ _ _ _ hk' x hx'

theorem addLoop_counts (now : String) (allow : Bool) (bs : List Book) :
    ∀ keys merged a s,
    (addLoop now allow bs keys merged a s).2.1 + (addLoop now allow bs keys merged a s).2.2 =
      a + s + bs.length := by
  induction bs with
  | nil => intro keys merged a s; simp [addLoop]
  | cons b rest ih =>
    intro keys merged a s
    simp only [addLoop]
    split
    · rw [ih]; simp only [List.length_cons]; omega
    · rw [ih]; simp only [List.length_cons]; omega

theorem addLoop_length (now : String) (allow : Bool) (bs : List Book) :
    ∀ keys merged a s,
    (addLoop now allow bs keys merged a s).1.length + a =
      merged.length + (addLoop now allow bs keys merged a s).2.1 := by
  induction bs with
  | nil => intro keys merged a s; simp [addLoop]
  | cons b rest ih =>
    intro keys merged a s
    simp only [addLoop]
    split
    · exact ih _ _ _ _
    · have := ih ((restamp now b).key :: keys) (merged ++ [restamp now b]) (a + 1) s
      rw [List.length_append] at this
      simp only [List.length_singleton] at this
      omega

/-! ### C1 — merge idempotence -/

/-- C1: merging a batch `B` into a collection `E` with duplicate-skipping
enabled and then merging the identical batch into the result, again with
duplicate-skipping enabled, adds zero records and reports a skipped count
equal to the size of `B`. -/
theorem merge_idempotent (E B : List Book) (n1 n2 : String) :
    (add_books (add_books E B false n1).1 B false n2).2.1 = 0 ∧
    (add_books (add_books E B false n1).1 B false n2).2.2 = B.length := by
  have hkeys : ∀ b ∈ B, Book.key b ∈ (add_books E B false n1).1.map Book.key := by
    intro b hb
    have h0 : ∀ k ∈ E.map Book.key, k ∈ E.map Book.key := fun k hk => hk
    have hpres := addLoop_keys_present n1 false B (E.map Book.key) E 0 0 h0 b hb
    have hperm : (sortBooks (addLoop n1 false B (E.map Book.key) E 0 0).1).Perm
        (addLoop n1 false B (E.map Book.key) E 0 0).1 := List.mergeSort_perm _ _
    exact ((hperm.map Book.key).mem_iff).mpr hpres
  have h2 := addLoop_all_skipped n2 B
    ((add_books E B false n1).1.map Book.key) (add_books E B false n1).1 0 0 hkeys
  constructor
  · show (addLoop n2 false B _ _ 0 0).2.1 = 0
    rw [h2]
  · show (addLoop n2 false B _ _ 0 0).2.2 = B.length
    rw [h2]
    simp

/-! ### C10 — the merge never loses records, and the counts add up -/

/-- C10: whatever the duplicate-allowance flag, every record of the
existing collection appears in the merged output, the reported added and
skipped counts sum to the number of incoming records, and the merged
collection's size is the existing size plus the added count. -/
theorem merge_preserves (E B : List Book) (allow : Bool) (now : String) :
    (∀ x ∈ E, x ∈ (add_books E B allow now).1) ∧
    (add_books E B allow now).2.1 + (add_books E B allow now).2.2 = B.length ∧
    (add_books E B allow now).1.length = E.length + (add_books E B allow now).2.1 := by
  refine ⟨?_, ?_, ?_⟩
  · intro x hx
    have hmem := addLoop_mono now allow B (E.map Book.key) E 0 0 x hx
    have hperm : (sortBooks (addLoop now allow B (E.map Book.key) E 0 0).1).Perm
        (addLoop now allow B (E.map Book.key) E 0 0).1 := List.mergeSort_perm _ _
    exact hperm.mem_iff.mpr hmem
  · have := addLoop_counts now allow B (E.map Book.key) E 0 0
    simpa using this
  · have hlen := addLoop_length now allow B (E.map Book.key) E 0 0
    have hperm : (sortBooks (addLoop now allow B (E.map Book.key) E 0 0).1).Perm
        (addLoop now allow B (E.map Book.key) E 0 0).1 := List.mergeSort_perm _ _
    have hplen := hperm.length_eq
    show (sortBooks (addLoop now allow B (E.map Book.key) E 0 0).1).length =
      E.length + (addLoop now allow B (E.map Book.key) E 0 0).2.1
    omega

/-! ### C2 — unknowns sort last -/

theorem digitsFold_lt (l : List Char) : ∀ a : Nat, (∀ c ∈ l, isDigitChar c = true) →
    l.foldl (fun a c => 10 * a + (c.toNat - 48)) a < (a + 1) * 10 ^ l.length := by
  induction l with
  | nil =>
    intro a _
    simp
  | cons c t ih =>
    intro a h
    have hc : 48 ≤ c.toNat ∧ c.toNat ≤ 57 := by
      have := h c (List.mem_cons_self _ _)
      simpa [isDigitChar] using this
    simp only [List.foldl_cons, List.length_cons]
    calc t.foldl (fun a c => 10 * a + (c.toNat - 48)) (10 * a + (c.toNat - 48))
        < (10 * a + (c.toNat - 48) + 1) * 10 ^ t.length :=
          ih _ (fun d hd => h d (List.mem_cons_of_mem _ hd))
      _ ≤ (10 * (a + 1)) * 10 ^ t.length :=
          Nat.mul_le_mul_right _ (by omega)
      _ = (a + 1) * 10 ^ (t.length + 1) := by ring

theorem findDigitRun_spec : ∀ l ds, findDigitRun l = some ds →
    ds.length ≤ 4 ∧ ∀ c ∈ ds, isDigitChar c = true := by
  intro l
  induction l with
  | nil => intro ds h; simp [findDigitRun] at h
  | cons c t ih =>
    intro ds h
    by_cases hc : isDigitChar c
    · rw [findDigitRun, if_pos hc] at h
      simp only [Option.some.injEq] at h
      subst h
      constructor
      · rw [List.length_take]
        omega
      · intro d hd
        have hd2 : d ∈ (c :: t).takeWhile isDigitChar := List.take_subset _ _ hd
        exact List.mem_takeWhile_imp hd2
    · rw [findDigitRun, if_neg hc] at h
      exact ih ds h

theorem parse_int_le {s : String} {y : Nat} (h : parse_int s = some y) : y ≤ 9999 := by
  unfold parse_int at h
  simp only [] at h
  split at h
  · exact absurd h (by simp)
  · split at h
    · exact absurd h (by simp)
    case _ ds hds =>
      simp only [Option.some.injEq] at h
      subst h
      obtain ⟨hlen, hdig⟩ := findDigitRun_spec _ _ hds
      have h1 : digitsToNat ds < 1 * 10 ^ ds.length := digitsFold_lt ds 0 hdig
      have h2 : (10 : Nat) ^ ds.length ≤ 10 ^ 4 :=
        Nat.pow_le_pow_right (by omega) hlen
      simp only [one_mul] at h1
      omega

theorem charListLtB_irrefl : ∀ l, charListLtB l l = false := by
  intro l
  induction l with
  | nil => rfl
  | cons a t ih => simp [charListLtB, ih]

/-- C2 (amended): parsed years never exceed 9999, so within a group —
equal normalized genre, surname and name — a record with a known year
sorts strictly before every record with unknown year; with equal years, a
record with a known volume below the 99999 sentinel sorts strictly before
every record with unknown volume.  (The bound on the volume is forced:
`parse_volume` accepts unbounded digit runs, and a volume ≥ 99999 sorts
at or after the unknowns.) -/
theorem unknowns_sort_last (a b : Book)
    (hg : norm a.genere = norm b.genere) (hc : norm a.cognome = norm b.cognome)
    (hn : norm a.nome = norm b.nome) :
    (∀ s y, parse_int s = some y → y ≤ 9999) ∧
    (∀ y, a.anno = some y → y ≤ 9999 → b.anno = none →
      sortKeyLtB a.sort_key b.sort_key = true) ∧
    (a.anno = b.anno → ∀ v, a.volume = some v → v < 99999 → b.volume = none →
      sortKeyLtB a.sort_key b.sort_key = true) := by
  refine ⟨fun s y h => parse_int_le h, ?_, ?_⟩
  · intro y hy hyle hbn
    have hlt : y < 99999 := by omega
    simp only [Book.sort_key, sortKeyLtB, strLtB, hg, hc, hn, hy, hbn,
      Option.getD_some, Option.getD_none, charListLtB_irrefl, if_false,
      Bool.false_eq_true, hlt, if_true]
  · intro hab v hv hvlt hbn
    have hya : a.anno.getD 99999 = b.anno.getD 99999 := by rw [hab]
    simp only [Book.sort_key, sortKeyLtB, strLtB, hg, hc, hn, hya, hv, hbn,
      Option.getD_some, Option.getD_none, charListLtB_irrefl, if_false,
      Bool.false_eq_true, lt_self_iff_false, hvlt, if_true]

theorem unknowns_sort_last_witness :
    sortKeyLtB (Book.mk "G" "A" "B" "T" "" "P" (some 1990) (some 2) "" "T" "T").sort_key
      (Book.mk "G" "A" "B" "T2" "" "P" none none "" "T" "T").sort_key = true :=
  (unknowns_sort_last
    (Book.mk "G" "A" "B" "T" "" "P" (some 1990) (some 2) "" "T" "T")
    (Book.mk "G" "A" "B" "T2" "" "P" none none "" "T" "T")
    (by decide) (by decide) (by decide)).2.1 1990 (by decide) (by decide) (by decide)

/-- C2 counterexample: the parser accepts the unbounded digit volume
100000 > 99999 from a title, and the resulting record — despite agreeing
with its group and year — sorts strictly *after* the record with unknown
volume. -/
theorem known_volume_after_unknown :
    parse_lines "T" false ["A;B;vol 100000;;P;2000;G", "A;B;Z;;P;2000;G"] =
      ([Book.mk "G" "A" "B" "vol 100000" "" "P" (some 2000) (some 100000) "" "T" "T",
        Book.mk "G" "A" "B" "Z" "" "P" (some 2000) none "" "T" "T"], []) ∧
    sortKeyLtB (Book.mk "G" "A" "B" "Z" "" "P" (some 2000) none "" "T" "T").sort_key
      (Book.mk "G" "A" "B" "vol 100000" "" "P" (some 2000) (some 100000) "" "T" "T").sort_key
      = true ∧
    sortKeyLtB
      (Book.mk "G" "A" "B" "vol 100000" "" "P" (some 2000) (some 100000) "" "T" "T").sort_key
      (Book.mk "G" "A" "B" "Z" "" "P" (some 2000) none "" "T" "T").sort_key = false := by
  decide

/-! ### C4 — Roman numerals: the accumulation loop on canonical chunks -/

theorem romVal_i : (lookupRows ROMAN_MAP 'i').getD 0 = 1 := by decide

theorem romVal_v : (lookupRows ROMAN_MAP 'v').getD 0 = 5 := by decide

theorem romVal_x : (lookupRows ROMAN_MAP 'x').getD 0 = 10 := by decide

theorem romVal_l : (lookupRows ROMAN_MAP 'l').getD 0 = 50 := by decide

theorem romVal_c : (lookupRows ROMAN_MAP 'c').getD 0 = 100 := by decide

theorem romVal_d : (lookupRows ROMAN_MAP 'd').getD 0 = 500 := by decide

theorem romVal_m : (lookupRows ROMAN_MAP 'm').getD 0 = 1000 := by decide

theorem romanGo_append (l1 l2 : List Char) : ∀ t p,
    romanGo (l1 ++ l2) t p =
      romanGo l2 (romanGo l1 t p).1 (romanGo l1 t p).2 := by
  induction l1 with
  | nil => intro t p; rfl
  | cons c r ih =>
    intro t p
    simp only [List.cons_append, romanGo]
    split_ifs <;> apply ih

theorem romanGo_units (u : Nat) (hu : u ≤ 9) (t : Int) :
    (romanGo (((romUnits.getD u []).map casefoldChar).reverse) t 0).1 = t + u ∧
    (romanGo (((romUnits.getD u []).map casefoldChar).reverse) t 0).2 ≤ 10 := by
  interval_cases u
  · have h : ((romUnits.getD 0 []).map casefoldChar).reverse = [] := by decide
    rw [h]; simp only [romanGo, romVal_i, romVal_v, romVal_x]; norm_num
  · have h : ((romUnits.getD 1 []).map casefoldChar).reverse = ['i'] := by decide
    rw [h]; simp only [romanGo, romVal_i, romVal_v, romVal_x]; norm_num
  · have h : ((romUnits.getD 2 []).map casefoldChar).reverse = ['i','i'] := by decide
    rw [h]; simp only [romanGo, romVal_i, romVal_v, romVal_x]; norm_num <;> omega
  · have h : ((romUnits.getD 3 []).map casefoldChar).reverse = ['i','i','i'] := by decide
    rw [h]; simp only [romanGo, romVal_i, romVal_v, romVal_x]; norm_num <;> omega
  · have h : ((romUnits.getD 4 []).map casefoldChar).reverse = ['v','i'] := by decide
    rw [h]; simp only [romanGo, romVal_i, romVal_v, romVal_x]; norm_num <;> omega
  · have h : ((romUnits.getD 5 []).map casefoldChar).reverse = ['v'] := by decide
    rw [h]; simp only [romanGo, romVal_i, romVal_v, romVal_x]; norm_num
  · have h : ((romUnits.getD 6 []).map casefoldChar).reverse = ['i','v'] := by decide
    rw [h]; simp only [romanGo, romVal_i, romVal_v, romVal_x]; norm_num <;> omega
  · have h : ((romUnits.getD 7 []).map casefoldChar).reverse = ['i','i','v'] := by decide
    rw [h]; simp only [romanGo, romVal_i, romVal_v, romVal_x]; norm_num <;> omega
  · have h : ((romUnits.getD 8 []).map casefoldChar).reverse = ['i','i','i','v'] := by decide
    rw [h]; simp only [romanGo, romVal_i, romVal_v, romVal_x]; norm_num <;> omega
  · have h : ((romUnits.getD 9 []).map casefoldChar).reverse = ['x','i'] := by decide
    rw [h]; simp only [romanGo, romVal_i, romVal_v, romVal_x]; norm_num <;> omega

theorem romanGo_tens (d : Nat) (hd : d ≤ 9) (t : Int) (p : Nat) (hp : p ≤ 10) :
    (romanGo (((romTens.getD d []).map casefoldChar).reverse) t p).1 = t + 10 * d ∧
    (romanGo (((romTens.getD d []).map casefoldChar).reverse) t p).2 ≤ 100 := by
  interval_cases d
  · have h : ((romTens.getD 0 []).map casefoldChar).reverse = [] := by decide
    rw [h]; simp only [romanGo]; norm_num; omega
  · have h : ((romTens.getD 1 []).map casefoldChar).reverse = ['x'] := by decide
    rw [h]; simp only [romanGo, romVal_x, romVal_l, romVal_c]
    split_ifs <;> norm_num <;> omega
  · have h : ((romTens.getD 2 []).map casefoldChar).reverse = ['x','x'] := by decide
    rw [h]; simp only [romanGo, romVal_x, romVal_l, romVal_c]
    split_ifs <;> norm_num <;> omega
  · have h : ((romTens.getD 3 []).map casefoldChar).reverse = ['x','x','x'] := by decide
    rw [h]; simp only [romanGo, romVal_x, romVal_l, romVal_c]
    split_ifs <;> norm_num <;> omega
  · have h : ((romTens.getD 4 []).map casefoldChar).reverse = ['l','x'] := by decide
    rw [h]; simp only [romanGo, romVal_x, romVal_l, romVal_c]
    split_ifs <;> norm_num <;> omega
  · have h : ((romTens.getD 5 []).map casefoldChar).reverse = ['l'] := by decide
    rw [h]; simp only [romanGo, romVal_x, romVal_l, romVal_c]
    split_ifs <;> norm_num <;> omega
  · have h : ((romTens.getD 6 []).map casefoldChar).reverse = ['x','l'] := by decide
    rw [h]; simp only [romanGo, romVal_x, romVal_l, romVal_c]
    split_ifs <;> norm_num <;> omega
  · have h : ((romTens.getD 7 []).map casefoldChar).reverse = ['x','x','l'] := by decide
    rw [h]; simp only [romanGo, romVal_x, romVal_l, romVal_c]
    split_ifs <;> norm_num <;> omega
  · have h : ((romTens.getD 8 []).map casefoldChar).reverse = ['x','x','x','l'] := by decide
    rw [h]; simp only [romanGo, romVal_x, romVal_l, romVal_c]
    split_ifs <;> norm_num <;> omega
  · have h : ((romTens.getD 9 []).map casefoldChar).reverse = ['c','x'] := by decide
    rw [h]; simp only [romanGo, romVal_x, romVal_l, romVal_c]
    split_ifs <;> norm_num <;> omega

theorem romanGo_hund (d : Nat) (hd : d ≤ 9) (t : Int) (p : Nat) (hp : p ≤ 100) :
    (romanGo (((romHund.getD d []).map casefoldChar).reverse) t p).1 = t + 100 * d ∧
    (romanGo (((romHund.getD d []).map casefoldChar).reverse) t p).2 ≤ 1000 := by
  interval_cases d
  · have h : ((romHund.getD 0 []).map casefoldChar).reverse = [] := by decide
    rw [h]; simp only [romanGo]; norm_num; omega
  · have h : ((romHund.getD 1 []).map casefoldChar).reverse = ['c'] := by decide
    rw [h]; simp only [romanGo, romVal_c, romVal_d, romVal_m]
    split_ifs <;> norm_num <;> omega
  · have h : ((romHund.getD 2 []).map casefoldChar).reverse = ['c','c'] := by decide
    rw [h]; simp only [romanGo, romVal_c, romVal_d, romVal_m]
    split_ifs <;> norm_num <;> omega
  · have h : ((romHund.getD 3 []).map casefoldChar).reverse = ['c','c','c'] := by decide
    rw [h]; simp only [romanGo, romVal_c, romVal_d, romVal_m]
    split_ifs <;> norm_num <;> omega
  · have h : ((romHund.getD 4 []).map casefoldChar).reverse = ['d','c'] := by decide
    rw [h]; simp only [romanGo, romVal_c, romVal_d, romVal_m]
    split_ifs <;> norm_num <;> omega
  · have h : ((romHund.getD 5 []).map casefoldChar).reverse = ['d'] := by decide
    rw [h]; simp only [romanGo, romVal_c, romVal_d, romVal_m]
    split_ifs <;> norm_num <;> omega
  · have h : ((romHund.getD 6 []).map casefoldChar).reverse = ['c','d'] := by decide
    rw [h]; simp only [romanGo, romVal_c, romVal_d, romVal_m]
    split_ifs <;> norm_num <;> omega
  · have h : ((romHund.getD 7 []).map casefoldChar).reverse = ['c','c','d'] := by decide
    rw [h]; simp only [romanGo, romVal_c, romVal_d, romVal_m]
    split_ifs <;> norm_num <;> omega
  · have h : ((romHund.getD 8 []).map casefoldChar).reverse = ['c','c','c','d'] := by decide
    rw [h]; simp only [romanGo, romVal_c, romVal_d, romVal_m]
    split_ifs <;> norm_num <;> omega
  · have h : ((romHund.getD 9 []).map casefoldChar).reverse = ['m','c'] := by decide
    rw [h]; simp only [romanGo, romVal_c, romVal_d, romVal_m]
    split_ifs <;> norm_num <;> omega

theorem romanGo_thous (d : Nat) (hd : d ≤ 3) (t : Int) (p : Nat) (hp : p ≤ 1000) :
    (romanGo (((romThous.getD d []).map casefoldChar).reverse) t p).1 = t + 1000 * d := by
  interval_cases d
  · have h : ((romThous.getD 0 []).map casefoldChar).reverse = [] := by decide
    rw [h]; simp only [romanGo]; norm_num
  · have h : ((romThous.getD 1 []).map casefoldChar).reverse = ['m'] := by decide
    rw [h]; simp only [romanGo, romVal_m]
    split_ifs <;> norm_num <;> omega
  · have h : ((romThous.getD 2 []).map casefoldChar).reverse = ['m','m'] := by decide
    rw [h]; simp only [romanGo, romVal_m]
    split_ifs <;> norm_num <;> omega
  · have h : ((romThous.getD 3 []).map casefoldChar).reverse = ['m','m','m'] := by decide
    rw [h]; simp only [romanGo, romVal_m]
    split_ifs <;> norm_num <;> omega

/-- Folding the (case-folded, reversed) canonical numeral of `n` from the
initial state computes exactly `n`. -/
theorem romanGo_canon (n : Nat) (h1 : 1 ≤ n) (h2 : n ≤ 3999) :
    (romanGo (((romanCanonChars n).map casefoldChar).reverse) 0 0).1 = (n : Int) := by
  have hsplit : ((romanCanonChars n).map casefoldChar).reverse =
      ((romUnits.getD (n % 10) []).map casefoldChar).reverse ++
      (((romTens.getD (n % 100 / 10) []).map casefoldChar).reverse ++
       (((romHund.getD (n % 1000 / 100) []).map casefoldChar).reverse ++
        ((romThous.getD (n / 1000) []).map casefoldChar).reverse)) := by
    simp only [romanCanonChars, List.map_append, List.reverse_append, List.append_assoc]
  obtain ⟨hu1, hu2⟩ := romanGo_units (n % 10) (by omega) 0
  obtain ⟨ht1, ht2⟩ := romanGo_tens (n % 100 / 10) (by omega)
      (romanGo (((romUnits.getD (n % 10) []).map casefoldChar).reverse) 0 0).1
      (romanGo (((romUnits.getD (n % 10) []).map casefoldChar).reverse) 0 0).2 hu2
  obtain ⟨hh1, hh2⟩ := romanGo_hund (n % 1000 / 100) (by omega)
      (romanGo (((romTens.getD (n % 100 / 10) []).map casefoldChar).reverse)
        (romanGo (((romUnits.getD (n % 10) []).map casefoldChar).reverse) 0 0).1
        (romanGo (((romUnits.getD (n % 10) []).map casefoldChar).reverse) 0 0).2).1
      (romanGo (((romTens.getD (n % 100 / 10) []).map casefoldChar).reverse)
        (romanGo (((romUnits.getD (n % 10) []).map casefoldChar).reverse) 0 0).1
        (romanGo (((romUnits.getD (n % 10) []).map casefoldChar).reverse) 0 0).2).2 ht2
  have hm1 := romanGo_thous (n / 1000) (by omega)
      (romanGo (((romHund.getD (n % 1000 / 100) []).map casefoldChar).reverse)
        (romanGo (((romTens.getD (n % 100 / 10) []).map casefoldChar).reverse)
          (romanGo (((romUnits.getD (n % 10) []).map casefoldChar).reverse) 0 0).1
          (romanGo (((romUnits.getD (n % 10) []).map casefoldChar).reverse) 0 0).2).1
        (romanGo (((romTens.getD (n % 100 / 10) []).map casefoldChar).reverse)
          (romanGo (((romUnits.getD (n % 10) []).map casefoldChar).reverse) 0 0).1
          (romanGo (((romUnits.getD (n % 10) []).map casefoldChar).reverse) 0 0).2).2).1
      (romanGo (((romHund.getD (n % 1000 / 100) []).map casefoldChar).reverse)
        (romanGo (((romTens.getD (n % 100 / 10) []).map casefoldChar).reverse)
          (romanGo (((romUnits.getD (n % 10) []).map casefoldChar).reverse) 0 0).1
          (romanGo (((romUnits.getD (n % 10) []).map casefoldChar).reverse) 0 0).2).1
        (romanGo (((romTens.getD (n % 100 / 10) []).map casefoldChar).reverse)
          (romanGo (((romUnits.getD (n % 10) []).map casefoldChar).reverse) 0 0).1
          (romanGo (((romUnits.getD (n % 10) []).map casefoldChar).reverse) 0 0).2).2).2 hh2
  rw [hsplit, romanGo_append, romanGo_append, romanGo_append, hm1, hh1, ht1, hu1]
  push_cast
  omega

/-- Characters that are NFKD-stable, non-combining and non-whitespace pass
through `norm` as a plain casefold. -/
theorem normChars_eq_map_of_basic {l : List Char}
    (h : ∀ c ∈ l, c.toNat < 0xC0 ∧ isSpaceChar c = false) :
    normChars l = l.map casefoldChar := by
  have hstable : ∀ c ∈ l, nfkdChar c = [c] ∧ isCombining c = false := by
    intro c hc
    refine ⟨nfkdChar_eq_self_of_lt (h c hc).1, ?_⟩
    have := (h c hc).1
    simp only [isCombining]
    have h2 : ¬ (0x300 ≤ c.toNat) := by omega
    simp [h2]
  have htrim : trimChars l = l := by
    unfold trimChars
    have hdw : ∀ m : List Char, (∀ c ∈ m, isSpaceChar c = false) →
        m.dropWhile isSpaceChar = m := by
      intro m hm
      cases m with
      | nil => rfl
      | cons c t =>
        rw [List.dropWhile_cons, hm c (List.mem_cons_self _ _)]
        simp
    rw [hdw l (fun c hc => (h c hc).2)]
    rw [hdw l.reverse (fun c hc => (h c (List.mem_reverse.mp hc)).2), List.reverse_reverse]
  unfold normChars
  rw [strip_accents_id hstable, htrim]

theorem romanCanon_tables_upper :
    ∀ tab ∈ [romUnits, romTens, romHund, romThous],
    ∀ l ∈ tab, ∀ c ∈ l, c ∈ (['I','V','X','L','C','D','M'] : List Char) := by
  decide

theorem getD_chunk_mem {tab : List (List Char)} {i : Nat} {c : Char}
    (hc : c ∈ tab.getD i []) : ∃ l ∈ tab, c ∈ l := by
  rw [List.getD_eq_getD_get?] at hc
  cases h : tab.get? i with
  | none => rw [h] at hc; simp at hc
  | some l =>
    rw [h] at hc
    exact ⟨l, List.get?_mem h, hc⟩

theorem romanCanonChars_upper {n : Nat} {c : Char} (hc : c ∈ romanCanonChars n) :
    c ∈ (['I','V','X','L','C','D','M'] : List Char) := by
  simp only [romanCanonChars, List.mem_append] at hc
  rcases hc with ((h | h) | h) | h
  · obtain ⟨l, hl, hcl⟩ := getD_chunk_mem h
    exact romanCanon_tables_upper romThous (by simp) l hl c hcl
  · obtain ⟨l, hl, hcl⟩ := getD_chunk_mem h
    exact romanCanon_tables_upper romHund (by simp) l hl c hcl
  · obtain ⟨l, hl, hcl⟩ := getD_chunk_mem h
    exact romanCanon_tables_upper romTens (by simp) l hl c hcl
  · obtain ⟨l, hl, hcl⟩ := getD_chunk_mem h
    exact romanCanon_tables_upper romUnits (by simp) l hl c hcl

theorem romanCanonChars_ne_nil {n : Nat} (h1 : 1 ≤ n) (h2 : n ≤ 3999) :
    romanCanonChars n ≠ [] := by
  intro hnil
  simp only [romanCanonChars, List.append_eq_nil] at hnil
  obtain ⟨⟨⟨hT, hH⟩, hTe⟩, hU⟩ := hnil
  have hth : ∀ i < 4, romThous.getD i [] = [] → i = 0 := by decide
  have hhu : ∀ i < 10, romHund.getD i [] = [] → i = 0 := by decide
  have hte : ∀ i < 10, romTens.getD i [] = [] → i = 0 := by decide
  have hun : ∀ i < 10, romUnits.getD i [] = [] → i = 0 := by decide
  have ha : n / 1000 = 0 := hth (n / 1000) (by omega) hT
  have hb : n % 1000 / 100 = 0 := hhu (n % 1000 / 100) (by omega) hH
  have hc : n % 100 / 10 = 0 := hte (n % 100 / 10) (by omega) hTe
  have hd : n % 10 = 0 := hun (n % 10) (by omega) hU
  omega

theorem roman_upper_facts : ∀ c ∈ (['I','V','X','L','C','D','M'] : List Char),
    c.toNat < 0xC0 ∧ isSpaceChar c = false ∧
    (lookupRows ROMAN_MAP (casefoldChar c)).isNone = false := by
  decide

/-- `roman_to_int` computes `n` on the canonical numeral of `n`. -/
theorem roman_to_int_canon (n : Nat) (h1 : 1 ≤ n) (h2 : n ≤ 3999) :
    roman_to_int (romanCanon n) = some n := by
  unfold roman_to_int
  simp only []
  have hnorm : normChars (romanCanon n).data = (romanCanonChars n).map casefoldChar := by
    apply normChars_eq_map_of_basic
    intro c hc
    have hm := romanCanonChars_upper (n := n) hc
    exact ⟨(roman_upper_facts c hm).1, (roman_upper_facts c hm).2.1⟩
  rw [hnorm]
  have hne : (romanCanonChars n).map casefoldChar ≠ [] := by
    intro hm
    exact romanCanonChars_ne_nil h1 h2 (List.map_eq_nil_iff.mp hm)
  rw [if_neg hne]
  have hall : ((romanCanonChars n).map casefoldChar).any
      (fun c => (lookupRows ROMAN_MAP c).isNone) = false := by
    rw [List.any_eq_false]
    intro c hc
    rw [List.mem_map] at hc
    obtain ⟨d, hd, rfl⟩ := hc
    have hm := romanCanonChars_upper (n := n) hd
    rw [(roman_upper_facts d hm).2.2]
    simp
  rw [hall]
  simp only [Bool.false_eq_true, if_false]
  have hval := romanGo_canon n h1 h2
  rw [hval]
  have hpos : (0 : Int) < (n : Int) := by exact_mod_cast h1
  rw [if_pos hpos]
  simp

/-! ### The pattern search on designator-led texts -/

theorem dropSpaces_of_all {l : List Char} (h : ∀ c ∈ l, isSpaceChar c = false) :
    l.dropWhile isSpaceChar = l := by
  cases l with
  | nil => rfl
  | cons c t =>
    rw [List.dropWhile_cons, h c (List.mem_cons_self _ _)]
    simp

theorem searchVol_of_matchAt {c : Char} {rest v : List Char}
    (h : matchAt (c :: rest) = some v) : searchVol (c :: rest) false = some v := by
  simp only [searchVol]
  rw [if_neg (by simp)]
  rw [h]

theorem roman_upper_facts2 : ∀ c ∈ (['I','V','X','L','C','D','M'] : List Char),
    isDigitChar c = false ∧ isRomanCI c = true ∧ isSpaceChar c = false ∧
    isDigitChar (casefoldChar c) = false ∧
    casefoldChar c ∈ (['i','v','x','l','c','d','m'] : List Char) := by
  decide

theorem roman_lower_facts : ∀ c ∈ (['i','v','x','l','c','d','m'] : List Char),
    c.toNat < 0xC0 ∧ (c.toNat < 65 ∨ 90 < c.toNat) ∧ isSpaceChar c = false := by
  decide

theorem ordinal_keys_not_roman : ∀ p ∈ ITALIAN_ORDINALS,
    ∃ c ∈ p.1.data, c ∉ (['i','v','x','l','c','d','m'] : List Char) := by
  decide

theorem ordLookup_none_of_roman {w : List Char}
    (hw : ∀ c ∈ w, c ∈ (['i','v','x','l','c','d','m'] : List Char)) :
    lookupRows ITALIAN_ORDINALS (String.mk w) = none := by
  apply lookupRows_none
  intro p hp heq
  obtain ⟨c, hc, hcn⟩ := ordinal_keys_not_roman p hp
  rw [heq] at hc
  exact hcn (hw c hc)

theorem matchValue_roman {w : List Char} (hne : w ≠ [])
    (hw : ∀ c ∈ w, c ∈ (['I','V','X','L','C','D','M'] : List Char)) :
    matchValue w = some w := by
  unfold matchValue
  have hds : w.takeWhile isDigitChar = [] := by
    cases w with
    | nil => rfl
    | cons c t =>
      rw [List.takeWhile_cons, (roman_upper_facts2 c (hw c (List.mem_cons_self _ _))).1]
      simp
  rw [hds]
  rw [if_neg (by simp)]
  have hrs : w.takeWhile isRomanCI = w :=
    takeWhile_all (fun c hc => (roman_upper_facts2 c (hw c hc)).2.1)
  rw [hrs]
  simp only []
  rw [List.drop_length]
  rw [if_pos (by simp [hne, boundaryOk])]

/-- Attempting the pattern at `Volume<space>...` reduces to the value
alternation after the whitespace: the `vol.` branch fails at `u ≠ .`, the
`vol` branch fails because `ume...` matches no value alternative, and the
`volume` branch consumes the designator and the whitespace. -/
theorem matchAt_Volume_sp (w : List Char) :
    matchAt ('V' :: 'o' :: 'l' :: 'u' :: 'm' :: 'e' :: ' ' :: w) =
      matchValue (w.dropWhile isSpaceChar) := by
  have h1 : tryDesig ['v','o','l','.'] ('V' :: 'o' :: 'l' :: 'u' :: 'm' :: 'e' :: ' ' :: w)
      = none := rfl
  have h2 : tryDesig ['v','o','l'] ('V' :: 'o' :: 'l' :: 'u' :: 'm' :: 'e' :: ' ' :: w)
      = none := rfl
  have h3 : tryDesig ['v','o','l','u','m','e'] ('V' :: 'o' :: 'l' :: 'u' :: 'm' :: 'e' :: ' ' :: w)
      = matchValue (w.dropWhile isSpaceChar) := rfl
  have h4 : tryDesig ['t','o','m','o'] ('V' :: 'o' :: 'l' :: 'u' :: 'm' :: 'e' :: ' ' :: w)
      = none := rfl
  have h5 : tryDesig ['p','a','r','t','e'] ('V' :: 'o' :: 'l' :: 'u' :: 'm' :: 'e' :: ' ' :: w)
      = none := rfl
  simp only [matchAt, h1, h2, h3, h4, h5]
  cases hmv : matchValue (w.dropWhile isSpaceChar) <;> simp

theorem parse_volume_Volume_roman {w : List Char} (hne : w ≠ [])
    (hw : ∀ c ∈ w, c ∈ (['I','V','X','L','C','D','M'] : List Char)) :
    parse_volume (String.mk ('V' :: 'o' :: 'l' :: 'u' :: 'm' :: 'e' :: ' ' :: w)) =
      roman_to_int (String.mk w) := by
  obtain ⟨c0, t0, rfl⟩ : ∃ c0 t0, w = c0 :: t0 := by
    cases w with
    | nil => exact absurd rfl hne
    | cons c t => exact ⟨c, t, rfl⟩
  set w := c0 :: t0 with hw0
  have hsearch : searchVol ('V' :: 'o' :: 'l' :: 'u' :: 'm' :: 'e' :: ' ' :: w) false
      = some w := by
    apply searchVol_of_matchAt
    rw [matchAt_Volume_sp,
      dropSpaces_of_all (fun c hc => (roman_upper_facts2 c (hw c hc)).2.2.1),
      matchValue_roman hne hw]
  have hvn : normChars w = w.map casefoldChar :=
    normChars_eq_map_of_basic (fun c hc =>
      ⟨(roman_upper_facts c (hw c hc)).1, (roman_upper_facts c (hw c hc)).2.1⟩)
  have hlower : ∀ c ∈ w.map casefoldChar, c ∈ (['i','v','x','l','c','d','m'] : List Char) := by
    intro c hc
    rw [List.mem_map] at hc
    obtain ⟨d, hd, rfl⟩ := hc
    exact (roman_upper_facts2 d (hw d hd)).2.2.2.2
  have hvnid : normChars (w.map casefoldChar) = w.map casefoldChar :=
    normChars_id_of_plain (fun c hc =>
      ⟨(roman_lower_facts c (hlower c hc)).1, (roman_lower_facts c (hlower c hc)).2.1,
       (roman_lower_facts c (hlower c hc)).2.2⟩)
  unfold parse_volume
  rw [if_neg (by simp)]
  rw [show (String.mk ('V' :: 'o' :: 'l' :: 'u' :: 'm' :: 'e' :: ' ' :: w)).data =
    'V' :: 'o' :: 'l' :: 'u' :: 'm' :: 'e' :: ' ' :: w from rfl]
  rw [hsearch]
  simp only [hvn]
  have hdig : (w.map casefoldChar).all isDigitChar = false := by
    rw [hw0]
    simp only [List.map_cons, List.all_cons,
      (roman_upper_facts2 c0 (hw c0 (List.mem_cons_self _ _))).2.2.2.1, Bool.false_and]
  rw [hdig]
  simp only [Bool.and_false, Bool.false_eq_true, if_false]
  rw [ordLookup_none_of_roman hlower]
  show roman_to_int (String.mk (w.map casefoldChar)) = roman_to_int (String.mk w)
  unfold roman_to_int
  rw [show (String.mk (w.map casefoldChar)).data = w.map casefoldChar from rfl,
    show (String.mk w).data = w from rfl, hvnid, hvn]

/-- C4: on every valid Roman numeral (the canonical subtractive form of
`n`, for all `n` from 1 to 3999) `roman_to_int` computes `n`, and the
extractor applied to a designator followed by that numeral yields `n`;
a value token holding a character outside the symbol set, or whose
right-to-left computed total is not positive, yields not-found. -/
theorem roman_extraction_correct :
    (∀ n, 1 ≤ n → n ≤ 3999 →
      roman_to_int (romanCanon n) = some n ∧
      parse_volume ("Volume " ++ romanCanon n) = some n) ∧
    (∀ s, (∃ c ∈ normChars s.data, lookupRows ROMAN_MAP c = none) →
      roman_to_int s = none) ∧
    (∀ s, (romanGo (normChars s.data).reverse 0 0).1 ≤ 0 → roman_to_int s = none) := by
  refine ⟨fun n h1 h2 => ⟨roman_to_int_canon n h1 h2, ?_⟩, fun s hex => ?_, fun s hle => ?_⟩
  · have hne := romanCanonChars_ne_nil h1 h2
    have hup : ∀ c ∈ romanCanonChars n, c ∈ (['I','V','X','L','C','D','M'] : List Char) :=
      fun c hc => romanCanonChars_upper hc
    have heq : "Volume " ++ romanCanon n =
        String.mk ('V' :: 'o' :: 'l' :: 'u' :: 'm' :: 'e' :: ' ' :: romanCanonChars n) := rfl
    rw [heq, parse_volume_Volume_roman hne hup]
    exact roman_to_int_canon n h1 h2
  · obtain ⟨c, hc, hcn⟩ := hex
    unfold roman_to_int
    simp only []
    split_ifs with hA hB hC
    · rfl
    · rfl
    · exact absurd (List.any_eq_true.mpr ⟨c, hc, by rw [hcn]; rfl⟩) hB
    · rfl
  · unfold roman_to_int
    simp only []
    split_ifs with hA hB hC
    · rfl
    · rfl
    · exfalso; omega
    · rfl

theorem roman_extraction_correct_witness :
    roman_to_int (romanCanon 14) = some 14 ∧
    parse_volume ("Volume " ++ romanCanon 14) = some 14 ∧
    romanCanon 14 = "XIV" ∧
    parse_volume "Volume IV" = some 4 ∧
    parse_volume "Volume IX" = some 9 ∧
    roman_to_int "XQ" = none :=
  ⟨(roman_extraction_correct.1 14 (by decide) (by decide)).1,
   (roman_extraction_correct.1 14 (by decide) (by decide)).2,
   by decide, by decide, by decide,
   roman_extraction_correct.2.1 "XQ" ⟨'q', by decide, by decide⟩⟩

/-! ### C9 (amended) — optional whitespace after the designator -/

theorem digits_plain {ds : List Char} (hd : ∀ c ∈ ds, isDigitChar c = true) :
    normChars ds = ds :=
  normChars_id_of_plain (fun c hc =>
    ⟨(digit_facts (hd c hc)).1, (digit_facts (hd c hc)).2.1, (digit_facts (hd c hc)).2.2.1⟩)

theorem dropSpaces_digits {ds : List Char} (hd : ∀ c ∈ ds, isDigitChar c = true) :
    dropSpacesL ds = ds :=
  dropSpaces_of_all (fun c hc => (digit_facts (hd c hc)).2.2.1)

theorem matchValue_digits {ds : List Char} (hne : ds ≠ [])
    (hd : ∀ c ∈ ds, isDigitChar c = true) : matchValue ds = some ds := by
  unfold matchValue
  rw [takeWhile_all hd]
  simp only []
  rw [List.drop_length]
  rw [if_pos (by simp [hne, boundaryOk])]

theorem digit_ne_dot {c : Char} (hc : isDigitChar c = true) :
    (decide (casefoldChar c = '.')) = false := by
  rw [(digit_facts hc).2.2.2.2]
  apply decide_eq_false
  intro heq
  have hb : 48 ≤ c.toNat ∧ c.toNat ≤ 57 := by simpa [isDigitChar] using hc
  have := congrArg Char.toNat heq
  simp only [show ('.' : Char).toNat = 46 from rfl] at this
  omega

theorem matchAt_vol_digits {ds : List Char} (hne : ds ≠ [])
    (hd : ∀ c ∈ ds, isDigitChar c = true) :
    matchAt ('v' :: 'o' :: 'l' :: ds) = some ds := by
  obtain ⟨c, t, rfl⟩ : ∃ c t, ds = c :: t := by
    cases ds with
    | nil => exact absurd rfl hne
    | cons c t => exact ⟨c, t, rfl⟩
  have h1 : tryDesig ['v','o','l','.'] ('v' :: 'o' :: 'l' :: c :: t) = none := by
    have hpre : isPrefixCI ['v','o','l','.'] ('v' :: 'o' :: 'l' :: c :: t)
        = (decide (casefoldChar c = '.') && true) := rfl
    unfold tryDesig
    rw [hpre, digit_ne_dot (hd c (List.mem_cons_self _ _))]
    simp
  have h2 : tryDesig ['v','o','l'] ('v' :: 'o' :: 'l' :: c :: t)
      = matchValue (dropSpacesL (c :: t)) := rfl
  rw [dropSpaces_digits hd, matchValue_digits hne hd] at h2
  simp only [matchAt, h1, h2]

theorem matchAt_voldot_digits {ds : List Char} (hne : ds ≠ [])
    (hd : ∀ c ∈ ds, isDigitChar c = true) :
    matchAt ('v' :: 'o' :: 'l' :: '.' :: ds) = some ds := by
  have h1 : tryDesig ['v','o','l','.'] ('v' :: 'o' :: 'l' :: '.' :: ds)
      = matchValue (dropSpacesL ds) := rfl
  rw [dropSpaces_digits hd, matchValue_digits hne hd] at h1
  simp only [matchAt, h1]

theorem matchAt_volume_digits {ds : List Char} (hne : ds ≠ [])
    (hd : ∀ c ∈ ds, isDigitChar c = true) :
    matchAt ('v' :: 'o' :: 'l' :: 'u' :: 'm' :: 'e' :: ds) = some ds := by
  have h1 : tryDesig ['v','o','l','.'] ('v' :: 'o' :: 'l' :: 'u' :: 'm' :: 'e' :: ds)
      = none := rfl
  have h2 : tryDesig ['v','o','l'] ('v' :: 'o' :: 'l' :: 'u' :: 'm' :: 'e' :: ds)
      = none := rfl
  have h3 : tryDesig ['v','o','l','u','m','e'] ('v' :: 'o' :: 'l' :: 'u' :: 'm' :: 'e' :: ds)
      = matchValue (dropSpacesL ds) := rfl
  rw [dropSpaces_digits hd, matchValue_digits hne hd] at h3
  simp only [matchAt, h1, h2, h3]

theorem matchAt_tomo_digits {ds : List Char} (hne : ds ≠ [])
    (hd : ∀ c ∈ ds, isDigitChar c = true) :
    matchAt ('t' :: 'o' :: 'm' :: 'o' :: ds) = some ds := by
  have h1 : tryDesig ['v','o','l','.'] ('t' :: 'o' :: 'm' :: 'o' :: ds) = none := rfl
  have h2 : tryDesig ['v','o','l'] ('t' :: 'o' :: 'm' :: 'o' :: ds) = none := rfl
  have h3 : tryDesig ['v','o','l','u','m','e'] ('t' :: 'o' :: 'm' :: 'o' :: ds) = none := rfl
  have h4 : tryDesig ['t','o','m','o'] ('t' :: 'o' :: 'm' :: 'o' :: ds)
      = matchValue (dropSpacesL ds) := rfl
  rw [dropSpaces_digits hd, matchValue_digits hne hd] at h4
  simp only [matchAt, h1, h2, h3, h4]

theorem matchAt_parte_digits {ds : List Char} (hne : ds ≠ [])
    (hd : ∀ c ∈ ds, isDigitChar c = true) :
    matchAt ('p' :: 'a' :: 'r' :: 't' :: 'e' :: ds) = some ds := by
  have h1 : tryDesig ['v','o','l','.'] ('p' :: 'a' :: 'r' :: 't' :: 'e' :: ds) = none := rfl
  have h2 : tryDesig ['v','o','l'] ('p' :: 'a' :: 'r' :: 't' :: 'e' :: ds) = none := rfl
  have h3 : tryDesig ['v','o','l','u','m','e'] ('p' :: 'a' :: 'r' :: 't' :: 'e' :: ds)
      = none := rfl
  have h4 : tryDesig ['t','o','m','o'] ('p' :: 'a' :: 'r' :: 't' :: 'e' :: ds) = none := rfl
  have h5 : tryDesig ['p','a','r','t','e'] ('p' :: 'a' :: 'r' :: 't' :: 'e' :: ds)
      = matchValue (dropSpacesL ds) := rfl
  rw [dropSpaces_digits hd, matchValue_digits hne hd] at h5
  simp only [matchAt, h1, h2, h3, h4, h5]

theorem matchAt_volsp_digits {ds : List Char} (hne : ds ≠ [])
    (hd : ∀ c ∈ ds, isDigitChar c = true) :
    matchAt ('v' :: 'o' :: 'l' :: ' ' :: ds) = some ds := by
  have h1 : tryDesig ['v','o','l','.'] ('v' :: 'o' :: 'l' :: ' ' :: ds) = none := rfl
  have h2 : tryDesig ['v','o','l'] ('v' :: 'o' :: 'l' :: ' ' :: ds)
      = matchValue (ds.dropWhile isSpaceChar) := rfl
  rw [show ds.dropWhile isSpaceChar = dropSpacesL ds from rfl,
    dropSpaces_digits hd, matchValue_digits hne hd] at h2
  simp only [matchAt, h1, h2]

theorem parse_volume_of_search_digits {text ds : List Char}
    (hs : searchVol text false = some ds)
    (htne : text ≠ []) (hne : ds ≠ []) (hd : ∀ c ∈ ds, isDigitChar c = true) :
    parse_volume (String.mk text) = some (digitsToNat ds) := by
  unfold parse_volume
  rw [show (String.mk text).data = text from rfl]
  rw [if_neg htne]
  simp only [hs, digits_plain hd]
  rw [if_pos (by simp [hne, List.all_eq_true.mpr hd])]

/-- C9 (amended): the pattern accepts any amount of whitespace — including
none — between the designator and the value token: every designator
directly adjacent to a digit run matches and yields its value
("vol3" yields 3), and whitespace-separated forms match as well. -/
theorem designator_optional_whitespace (ds : List Char) (hne : ds ≠ [])
    (hd : ∀ c ∈ ds, isDigitChar c = true) :
    parse_volume (String.mk ('v' :: 'o' :: 'l' :: ds)) = some (digitsToNat ds) ∧
    parse_volume (String.mk ('v' :: 'o' :: 'l' :: '.' :: ds)) = some (digitsToNat ds) ∧
    parse_volume (String.mk ('v' :: 'o' :: 'l' :: 'u' :: 'm' :: 'e' :: ds))
      = some (digitsToNat ds) ∧
    parse_volume (String.mk ('t' :: 'o' :: 'm' :: 'o' :: ds)) = some (digitsToNat ds) ∧
    parse_volume (String.mk ('p' :: 'a' :: 'r' :: 't' :: 'e' :: ds))
      = some (digitsToNat ds) ∧
    parse_volume (String.mk ('v' :: 'o' :: 'l' :: ' ' :: ds)) = some (digitsToNat ds) :=
  ⟨parse_volume_of_search_digits
    (searchVol_of_matchAt (matchAt_vol_digits hne hd)) (by simp) hne hd,
   parse_volume_of_search_digits
    (searchVol_of_matchAt (matchAt_voldot_digits hne hd)) (by simp) hne hd,
   parse_volume_of_search_digits
    (searchVol_of_matchAt (matchAt_volume_digits hne hd)) (by simp) hne hd,
   parse_volume_of_search_digits
    (searchVol_of_matchAt (matchAt_tomo_digits hne hd)) (by simp) hne hd,
   parse_volume_of_search_digits
    (searchVol_of_matchAt (matchAt_parte_digits hne hd)) (by simp) hne hd,
   parse_volume_of_search_digits
    (searchVol_of_matchAt (matchAt_volsp_digits hne hd)) (by simp) hne hd⟩

theorem designator_optional_whitespace_witness :
    parse_volume "vol3" = some (digitsToNat ['3']) ∧
    parse_volume "vol 3" = some (digitsToNat ['3']) ∧
    parse_volume "tomo3" = some (digitsToNat ['3']) ∧
    digitsToNat ['3'] = 3 :=
  ⟨(designator_optional_whitespace ['3'] (by decide) (by decide)).1,
   (designator_optional_whitespace ['3'] (by decide) (by decide)).2.2.2.2.2,
   (designator_optional_whitespace ['3'] (by decide) (by decide)).2.2.2.1,
   by decide⟩

theorem merge_preserves_witness :
    (Book.mk "G" "A" "B" "T" "S" "P" (some 1999) none "" "T" "T") ∈
      [Book.mk "G" "A" "B" "T" "S" "P" (some 1999) none "" "T" "T"] ∧
    (Book.mk "G" "A" "B" "T" "S" "P" (some 1999) none "" "T" "T") ∈
      (add_books [Book.mk "G" "A" "B" "T" "S" "P" (some 1999) none "" "T" "T"]
        [Book.mk "G2" "C" "D" "T2" "S" "P" (some 2001) none "" "" ""] false "N").1 :=
  ⟨by decide,
   (merge_preserves [Book.mk "G" "A" "B" "T" "S" "P" (some 1999) none "" "T" "T"]
     [Book.mk "G2" "C" "D" "T2" "S" "P" (some 2001) none "" "" ""] false "N").1
     _ (by decide)⟩

end Biblioteca
